import Mathlib

/-!
Shallow embedding of the elvish line-editor core (package `edit`):
the two-tier history navigator, the editing-state mutators, and the
`ReadLine` event loop with its terminal-session lifecycle.

Modelling conventions:
- Go strings are modelled as `List Char` (`Str`); `len`, slicing and
  concatenation become `List.length`, `take`/`drop` and `++`.
  `strings.HasPrefix s p` becomes `p.isPrefixOf s`.
- Go `int` is modelled as `Int`.  List indexing `xs[i]` is modelled with
  `List.getD` (the Go code panics out of bounds; all reachable states index
  in bounds, where the two coincide).
- `error` values are modelled as `Option GoError` (`none` = nil).
- External collaborators that are not part of this source (the persistent
  store, the renderer, the key-binding tables, the terminal syscalls) are
  modelled as oracle functions supplied as parameters, per the spec's
  collaborator contracts.
-/

set_option autoImplicit false

namespace Elvish

/-- Go strings, modelled as lists of characters. -/
abbrev Str := List Char

/-- Go `error` payloads; `Option GoError` models a nilable `error`. -/
abbrev GoError := Str

/-- Terminal attribute snapshot (`sys.Termios`): the fields the editor
touches via `SetICanon` / `SetEcho` / `SetVMin` / `SetVTime`. -/
structure Termios where
  icanon : Bool := true
  echo : Bool := true
  vmin : Nat := 0
  vtime : Nat := 0
  deriving DecidableEq

/-- The raw-mode variant of a snapshot, as `setupTerminal` configures it:
non-canonical, echo off, one-byte minimum blocking read. -/
def rawMode (t : Termios) : Termios :=
  { t with icanon := false, echo := false, vmin := 1, vtime := 0 }

/-- A decoded key event (`Key`); only its identity matters to the core. -/
structure Key where
  rune : Char := Char.ofNat 0
  mod : Nat := 0
  deriving DecidableEq

/-- Modelled from the spec: a derived lexical annotation of the buffer
(`Token`); the core only stores and clears these. -/
structure Token where
  text : Str := []
  deriving DecidableEq

/-- The five interaction modes (`bufferMode`). -/
inductive BufferMode where
  | insert
  | command
  | completion
  | navigation
  | history
  deriving DecidableEq

/-- The history cursor (`history` struct): `current`, the search text
entered before History mode, and the currently selected line. -/
structure History where
  current : Int := 0
  pfx : Str := []
  line : Str := []
  deriving DecidableEq

/-- Modelled from the spec and the call site in `acceptCompletion`:
a completion candidate; the core consumes only `source.text`. -/
structure Candidate where
  sourceText : Str := []
  deriving DecidableEq

/-- Modelled from the spec: the completion overlay, an ordered candidate
list with a selected index. -/
structure Completion where
  current : Int := 0
  candidates : List Candidate := []
  deriving DecidableEq

/-- Modelled from the spec: the navigation overlay; only its presence or
absence matters to the claims. -/
structure Navigation where
  nv : Unit := ()
  deriving DecidableEq

/-- The result of `ReadLine` (`LineRead`).  The Go declaration is a struct
of three fields documented as "exactly one member is non-zero". -/
structure LineRead where
  Line : Str := []
  EOF : Bool := false
  Err : Option GoError := none
  deriving DecidableEq

/-- The three pending-effect kinds an action can request (`actionType`).
The Go zero value is `noAction`. -/
inductive ActionType where
  | noAction
  | reprocessKey
  | exitReadLine
  deriving DecidableEq

/-- A pending effect (`action` struct), as consumed by the event loop. -/
structure Action where
  actionType : ActionType := .noAction
  returnValue : LineRead := {}
  deriving DecidableEq

/-- The transient editing state (`editorState`), reset at the beginning of
`ReadLine` and discarded at the end.  Field defaults are the Go zero
values, so `{}` is the zero `editorState{}`. -/
structure EditorState where
  active : Bool := false
  savedTermios : Option Termios := none
  tokens : List Token := []
  prompt : Str := []
  rprompt : Str := []
  line : Str := []
  dot : Int := 0
  tips : List Str := []
  mode : BufferMode := .insert
  completion : Option Completion := none
  completionLines : Int := 0
  navigation : Option Navigation := none
  history : History := {}
  isExternal : Option (List (Str × Bool)) := none
  lastKey : Key := {}
  nextAction : Action := {}
  deriving DecidableEq

/-- Modelled from the spec: the persistent store collaborator.
`lastCmd upto pfx` models `store.LastCmd(upto, prefix)` returning
`(seq, line)` on success and `none` when the lookup errs (the editor
treats every non-nil error, no-match included, as failure); `firstCmd`
models `store.FirstCmd` likewise. -/
structure Store where
  lastCmd : Int → Str → Option (Int × Str)
  firstCmd : Int → Str → Option (Int × Str)

/-- The session-lifetime editor (`Editor`): session history, optional
persistent store, the `cmdSeq` baseline, and the embedded transient
editing state.  The terminal/reader/writer handles are modelled by the
oracle parameters of the loop interpreter instead. -/
structure Editor where
  histories : List Str := []
  store : Option Store := none
  cmdSeq : Int := 0
  state : EditorState := {}

/-- Replace the embedded editing state. -/
def Editor.setState (ed : Editor) (st : EditorState) : Editor :=
  { ed with state := st }

/-- Replace the history cursor inside the editing state. -/
def Editor.withHistory (ed : Editor) (h : History) : Editor :=
  { ed with state := { ed.state with history := h } }

/-- The sole mutator of the cursor, `history.jump(i, line)`. -/
def History.jump (h : History) (i : Int) (line : Str) : History :=
  { h with current := i, line := line }

/-- Backward scan of `lastHistory`, by fuel: checks indices
`n-1, n-2, ..., 0` in that order and returns the first hit. -/
def lastHistoryAux (histories : List Str) (pfx : Str) : Nat → Option (Nat × Str)
  | 0 => none
  | n + 1 =>
    if pfx.isPrefixOf (histories.getD n []) then some (n, histories.getD n [])
    else lastHistoryAux histories pfx n

/-- The backward scan `lastHistory(histories, upto, prefix)`: from `upto - 1`
down to `0` for the most recent entry with the given search text; returns
`(-1, "")` when there is none. -/
def lastHistory (histories : List Str) (upto : Int) (pfx : Str) : Int × Str :=
  match lastHistoryAux histories pfx upto.toNat with
  | some (i, line) => ((i : Int), line)
  | none => (-1, [])

/-- Forward scan of `firstHistory` from index `i` to the end. -/
def firstHistoryAux (histories : List Str) (pfx : Str) (i : Nat) : Option (Nat × Str) :=
  if h : i < histories.length then
    if pfx.isPrefixOf (histories.getD i []) then some (i, histories.getD i [])
    else firstHistoryAux histories pfx (i + 1)
  else none
termination_by histories.length - i
decreasing_by omega

/-- The forward scan `firstHistory(histories, from, prefix)`: from `from` for
the earliest entry with the given search text; `(-1, "")` when none.
The only caller passes `from = max(0, ...) ≥ 0`. -/
def firstHistory (histories : List Str) (fro : Int) (pfx : Str) : Int × Str :=
  match firstHistoryAux histories pfx fro.toNat with
  | some (i, line) => ((i : Int), line)
  | none => (-1, [])

/-- The function `Editor.prevHistory`: session tier first (only when `current > 0`),
then the persistent store at `cmdSeq + min(0, current)`; returns the
updated editor and the success flag. -/
def Editor.prevHistory (ed : Editor) : Editor × Bool :=
  let h := ed.state.history
  let sessionHit : Option (Int × Str) :=
    if 0 < h.current then
      let r := lastHistory ed.histories h.current h.pfx
      if 0 ≤ r.1 then some r else none
    else none
  match sessionHit with
  | some (i, line) => (ed.withHistory (h.jump i line), true)
  | none =>
    match ed.store with
    | some st =>
      let upto := ed.cmdSeq + min 0 h.current
      match st.lastCmd upto h.pfx with
      | some (i, line) => (ed.withHistory (h.jump (i - ed.cmdSeq) line), true)
      | none => (ed, false)
    | none => (ed, false)

/-- The function `Editor.nextHistory`: persistent store first (only when a store exists
and `current < -1`, querying from `cmdSeq + current + 1`), then the
session tier forward from `max(0, current + 1)`. -/
def Editor.nextHistory (ed : Editor) : Editor × Bool :=
  let h := ed.state.history
  let storeHit : Option (Int × Str) :=
    match ed.store with
    | some st =>
      if h.current < -1 then st.firstCmd (ed.cmdSeq + h.current + 1) h.pfx
      else none
    | none => none
  match storeHit with
  | some (i, line) => (ed.withHistory (h.jump (i - ed.cmdSeq) line), true)
  | none =>
    let fro := max 0 (h.current + 1)
    let r := firstHistory ed.histories fro h.pfx
    if 0 ≤ r.1 then (ed.withHistory (h.jump r.1 r.2), true)
    else (ed, false)

/-- The function `Editor.insertAtDot`: insert text at the dot and move the dot after
it (`line = line[:dot] + text + line[dot:]`, `dot += len(text)`). -/
def Editor.insertAtDot (ed : Editor) (text : Str) : Editor :=
  ed.setState { ed.state with
    line := ed.state.line.take ed.state.dot.toNat ++ text ++ ed.state.line.drop ed.state.dot.toNat,
    dot := ed.state.dot + (text.length : Int) }

/-- The function `Editor.acceptCompletion`: insert the selected candidate text when
the selection index is in bounds, then discard the overlay and return to
Insert mode.  The Go code reads `ed.completion` unconditionally; it is
only invoked with the overlay present (Completion mode), where the
`none` branch is unreachable. -/
def Editor.acceptCompletion (ed : Editor) : Editor :=
  let ed' :=
    match ed.state.completion with
    | some c =>
      if 0 ≤ c.current ∧ c.current < (c.candidates.length : Int) then
        ed.insertAtDot (c.candidates.getD c.current.toNat ⟨[]⟩).sourceText
      else ed
    | none => ed
  ed'.setState { ed'.state with completion := none, mode := .insert }

/-- The function `Editor.acceptHistory`: copy the cursor line into the edit buffer
and move the dot to its end. -/
def Editor.acceptHistory (ed : Editor) : Editor :=
  ed.setState { ed.state with
    line := ed.state.history.line,
    dot := (ed.state.history.line.length : Int) }

/-- The function `Editor.appendHistory`: append the line to session history; the second
component records the `store.AddCmd` calls made (one when a store is
present, none otherwise). -/
def Editor.appendHistory (ed : Editor) (line : Str) : Editor × List Str :=
  let ed' := { ed with histories := ed.histories ++ [line] }
  match ed.store with
  | some _ => (ed', [line])
  | none => (ed', [])

/-- Error accumulation (`errutil.CatError`), modelled from the spec: a
nil operand yields the other. -/
def catError : Option GoError → Option GoError → Option GoError
  | none, e => e
  | some a, none => some a
  | some a, some b => some (a ++ ("; ".data) ++ b)

/-- Observable terminal-session side effects of one read, used to state
the lifecycle claims.  Only successful syscalls are recorded. -/
inductive Effect where
  | applyTermios (t : Termios)
  | writeSetupSeq
  | render
  | writeNewline
  | readerQuit
  | writeAutowrapOn
  deriving DecidableEq

/-- The OS signals `ReadLine` distinguishes. -/
inductive Signal where
  | sigint
  | sigwinch
  | sigchld
  | other (name : Str)
  deriving DecidableEq

/-- One value from the decoded-event channel (`OneRead`): a decode error,
a cursor-position report (`cprValid` models `CPR != invalidPos`), or a
key. -/
structure OneRead where
  key : Key := {}
  cprValid : Bool := false
  err : Option GoError := none
  deriving DecidableEq

/-- One arrival at the loop's multi-way wait. -/
inductive LoopEvent where
  | extMap (m : List (Str × Bool))
  | sig (s : Signal)
  | one (o : OneRead)

/-- Modelled from the spec: the environment of one read.  `bindings m`
models `keyBindings[m]` (absent for an unbound mode); a present table is
a total function, absorbing the `DefaultBinding` fallback.  A dispatched
function mutates the transient editing state (including `nextAction`),
per the spec's dispatch contract.  `renderErr n` is the outcome of the
`n`-th renderer call; `tokensOf` is the lexer. -/
structure LoopCfg where
  p : Str
  rp : Str
  tokensOf : Str → List Token
  renderErr : Nat → Option GoError
  bindings : BufferMode → Option (Key → EditorState → EditorState)
  rpFuel : Nat

/-- The mutable state threaded through the loop: the editor, the count of
renderer calls so far, and the log of `store.AddCmd` calls. -/
structure LoopSt where
  ed : Editor
  renders : Nat
  storeAdds : List Str

/-- The refresh step `ed.refresh()`: re-lex the line unless in Completion mode, then call
the renderer; the result is the renderer's error outcome. -/
def doRefresh (cfg : LoopCfg) (s : LoopSt) : LoopSt × Option GoError :=
  let st := s.ed.state
  let st' := if st.mode = BufferMode.completion then st
             else { st with tokens := cfg.tokensOf st.line }
  ({ s with ed := s.ed.setState st', renders := s.renders + 1 },
   cfg.renderErr s.renders)

/-- Append a tip (`ed.pushTip`). -/
def pushTipS (s : LoopSt) (msg : Str) : LoopSt :=
  { s with ed := s.ed.setState { s.ed.state with tips := s.ed.state.tips ++ [msg] } }

/-- Record an `appendHistory` call in the loop state. -/
def doAppendHistory (s : LoopSt) (line : Str) : LoopSt :=
  let r := s.ed.appendHistory line
  { s with ed := r.1, storeAdds := s.storeAdds ++ r.2 }

/-- Outcome of handling one arrival: continue looping, return from
`ReadLine` with a result, or run out of reprocess fuel (an artifact of
modelling the `goto lookupKey` loop with fuel). -/
inductive StepRes where
  | cont (s : LoopSt)
  | exit (s : LoopSt) (lr : LineRead)
  | fuelOut (s : LoopSt)

/-- The `lookupKey` label: look up the binding table of the mode, dispatch the
key, and interpret the pending effect; `reprocessKey` re-renders and
re-dispatches the same key against the possibly-changed mode. -/
def lookupKey (cfg : LoopCfg) (k : Key) : Nat → LoopSt → StepRes
  | 0, s => .fuelOut s
  | fuel + 1, s =>
    match cfg.bindings s.ed.state.mode with
    | none => .cont (pushTipS s ("No binding for current mode".data))
    | some kb =>
      let st1 := kb k { s.ed.state with lastKey := k }
      let act := st1.nextAction
      let s1 := { s with ed := s.ed.setState { st1 with nextAction := {} } }
      match act.actionType with
      | .noAction => .cont s1
      | .reprocessKey =>
        let r := doRefresh cfg s1
        match r.2 with
        | some e => .exit r.1 { Err := some e }
        | none => lookupKey cfg k fuel r.1
      | .exitReadLine =>
        let lr := act.returnValue
        if lr.EOF = false ∧ lr.Err = none ∧ lr.Line ≠ [] then
          .exit (doAppendHistory s1 lr.Line) lr
        else .exit s1 lr

/-- The body of the `select`: handle one arrival. -/
def handleEvent (cfg : LoopCfg) (s : LoopSt) : LoopEvent → StepRes
  | .extMap m =>
    .cont { s with ed := s.ed.setState { s.ed.state with isExternal := some m } }
  | .sig .sigint =>
    .cont { s with ed := s.ed.setState { savedTermios := s.ed.state.savedTermios, isExternal := s.ed.state.isExternal } }
  | .sig .sigwinch => .cont s
  | .sig .sigchld => .cont s
  | .sig (.other name) => .cont (pushTipS s (("ignored signal ".data) ++ name))
  | .one o =>
    match o.err with
    | some e => .cont (pushTipS s e)
    | none =>
      if o.cprValid then .cont s
      else lookupKey cfg o.key cfg.rpFuel s

/-- One iteration of `MainLoop`: recompute prompts, refresh (returning
`LineRead{Err: err}` on a render error), clear tips, then handle the
arrival. -/
def loopIter (cfg : LoopCfg) (s : LoopSt) (ev : LoopEvent) : StepRes :=
  let s1 := { s with ed := s.ed.setState { s.ed.state with prompt := cfg.p, rprompt := cfg.rp } }
  let r := doRefresh cfg s1
  match r.2 with
  | some e => .exit r.1 { Err := some e }
  | none =>
    let s2 := { r.1 with ed := r.1.ed.setState { r.1.ed.state with tips := [] } }
    handleEvent cfg s2 ev

/-- Outcome of running `MainLoop` on a finite arrival sequence. -/
inductive RunRes where
  | pending (s : LoopSt)
  | returned (s : LoopSt) (lr : LineRead)
  | fuelOut (s : LoopSt)

/-- Run `MainLoop`, consuming one arrival per iteration; an exhausted
arrival list models a read still blocked at the multi-way wait. -/
def runLoop (cfg : LoopCfg) : LoopSt → List LoopEvent → RunRes
  | s, [] => .pending s
  | s, ev :: evs =>
    match loopIter cfg s ev with
    | .cont s' => runLoop cfg s' evs
    | .exit s' lr => .returned s' lr
    | .fuelOut s' => .fuelOut s'

/-- The teardown `ed.finishReadLine(addError)`: reset the mode-level state, do a final
render, write a newline, stop the event source, re-enable autowrap,
re-apply the saved snapshot, and zero the editing state.  Returns the
final loop state, the effect list (every step, regardless of errors),
and the collected errors in order. -/
def finishReadLine (cfg : LoopCfg) (restoreErr : Option GoError) (s : LoopSt) :
    LoopSt × List Effect × List GoError :=
  let st1 := { s.ed.state with
                 mode := BufferMode.insert, tips := [], completion := none,
                 navigation := none, dot := (s.ed.state.line.length : Int), rprompt := [] }
  let r := doRefresh cfg { s with ed := s.ed.setState st1 }
  let renderErrs : List GoError := match r.2 with | some e => [e] | none => []
  let restoreEff : List Effect :=
    match r.1.ed.state.savedTermios with
    | some t => [Effect.applyTermios t]
    | none => []
  let restoreErrs : List GoError :=
    match restoreErr with
    | some e => [("can not restore terminal attribute: ".data) ++ e]
    | none => []
  let s' := { r.1 with ed := r.1.ed.setState {} }
  (s', [Effect.render, Effect.writeNewline, Effect.readerQuit, Effect.writeAutowrapOn]
        ++ restoreEff,
   renderErrs ++ restoreErrs)

/-- Modelled from the spec: the terminal-syscall outcomes of one read.
`setup = none` models `NewTermiosFromFd` failing; `setupApplyOk = false`
models the raw-mode `ApplyToFd` failing; `restoreErr` is the outcome of
re-applying the snapshot at teardown. -/
structure ReadOracles where
  setup : Option Termios
  setupApplyOk : Bool
  restoreErr : Option GoError

/-- Outcome of one whole `ReadLine` call, with the session-long effect
trace.  `pending`/`fuelOut` are reads that have not yet returned. -/
inductive ReadLineRes where
  | setupFailed (lr : LineRead) (ed : Editor) (effects : List Effect)
  | pending (s : LoopSt) (effects : List Effect)
  | fuelOut (s : LoopSt) (effects : List Effect)
  | finished (lr : LineRead) (s : LoopSt) (effects : List Effect)

/-- The loop state `ReadLine` enters `MainLoop` with, after a successful
setup that saved snapshot `t`. -/
def initLoopSt (ed0 : Editor) (t : Termios) : LoopSt :=
  { ed := { ed0 with state := { active := true, savedTermios := some t } },
    renders := 0, storeAdds := [] }

/-- The whole read `Editor.ReadLine`: reset the editing state, set up the terminal
(returning an error result with no teardown when that fails), run the
loop, and on return run the deferred `finishReadLine`, folding the
collected teardown errors into the result's `Err`. -/
def ReadLine (cfg : LoopCfg) (orc : ReadOracles) (ed0 : Editor)
    (evs : List LoopEvent) : ReadLineRes :=
  let ed := { ed0 with state := { active := true } }
  match orc.setup with
  | none => .setupFailed { Err := some ("can not get terminal attribute".data) } ed []
  | some t =>
    if orc.setupApplyOk then
      let setupEffs := [Effect.applyTermios (rawMode t), Effect.writeSetupSeq]
      match runLoop cfg (initLoopSt ed0 t) evs with
      | .pending s => .pending s setupEffs
      | .fuelOut s => .fuelOut s setupEffs
      | .returned s lr =>
        let fin := finishReadLine cfg orc.restoreErr s
        .finished { lr with Err := fin.2.2.foldl (fun a e => catError a (some e)) lr.Err }
          fin.1 (setupEffs ++ fin.2.1)
    else .setupFailed { Err := some ("can not set up terminal attribute".data) } ed []

/-! ### Spec-side characterizations -/

/-- The spec wording "most recent entry whose text starts with the search text,
strictly before `upto`": index `i` matches and no later index below
`upto` does. -/
def sessionLastMatch (hs : List Str) (upto : Int) (pfx : Str) (i : Nat) : Prop :=
  (i : Int) < upto ∧ pfx.isPrefixOf (hs.getD i []) = true ∧
    ∀ j ∈ List.range upto.toNat, i < j → pfx.isPrefixOf (hs.getD j []) = false

/-- The spec wording "earliest entry at or after `fro` whose text starts with
the search text". -/
def sessionFirstMatch (hs : List Str) (fro : Int) (pfx : Str) (i : Nat) : Prop :=
  fro ≤ (i : Int) ∧ i < hs.length ∧ pfx.isPrefixOf (hs.getD i []) = true ∧
    ∀ j ∈ List.range i, fro ≤ (j : Int) → pfx.isPrefixOf (hs.getD j []) = false

/-! ### Scan lemmas -/

theorem bool_eq_false {b : Bool} (h : ¬ b = true) : b = false := by
  cases b
  · rfl
  · exact absurd rfl h

theorem lastHistoryAux_some {hs : List Str} {pfx : Str} :
    ∀ {n i : Nat} {l : Str}, lastHistoryAux hs pfx n = some (i, l) →
      i < n ∧ l = hs.getD i [] ∧ pfx.isPrefixOf (hs.getD i []) = true ∧
        ∀ j, i < j → j < n → pfx.isPrefixOf (hs.getD j []) = false := by
  intro n
  induction n with
  | zero => intro i l h; simp [lastHistoryAux] at h
  | succ n ih =>
    intro i l h
    simp only [lastHistoryAux] at h
    by_cases hp : pfx.isPrefixOf (hs.getD n []) = true
    · rw [if_pos hp] at h
      injection h with h'
      injection h' with h1 h2
      subst h1; subst h2
      refine ⟨Nat.lt_succ_self _, rfl, hp, ?_⟩
      intro j hij hjn
      omega
    · rw [if_neg hp] at h
      obtain ⟨h1, h2, h3, h4⟩ := ih h
      refine ⟨Nat.lt_succ_of_lt h1, h2, h3, ?_⟩
      intro j hij hjn
      have hcase : j < n ∨ j = n := by omega
      rcases hcase with hlt | heq
      · exact h4 j hij hlt
      · subst heq
        exact bool_eq_false hp

theorem lastHistoryAux_none {hs : List Str} {pfx : Str} :
    ∀ {n : Nat}, (∀ i, i < n → pfx.isPrefixOf (hs.getD i []) = false) →
      lastHistoryAux hs pfx n = none := by
  intro n
  induction n with
  | zero => intro _; rfl
  | succ n ih =>
    intro h
    simp only [lastHistoryAux]
    rw [if_neg (by rw [h n (Nat.lt_succ_self n)]; exact Bool.false_ne_true),
        ih (fun i hi => h i (Nat.lt_succ_of_lt hi))]

theorem lastHistoryAux_complete {hs : List Str} {pfx : Str} :
    ∀ {n i : Nat}, i < n → pfx.isPrefixOf (hs.getD i []) = true →
      ∃ j l, lastHistoryAux hs pfx n = some (j, l) := by
  intro n
  induction n with
  | zero => intro i h; omega
  | succ n ih =>
    intro i hin hq
    simp only [lastHistoryAux]
    by_cases hp : pfx.isPrefixOf (hs.getD n []) = true
    · exact ⟨n, hs.getD n [], by rw [if_pos hp]⟩
    · rw [if_neg hp]
      have hi' : i < n := by
        have : i ≠ n := fun he => hp (he ▸ hq)
        omega
      exact ih hi' hq

/-- The scan `lastHistory` computes exactly the spec notion of "most recent match below
`upto`". -/
theorem lastHistory_of_sessionLastMatch {hs : List Str} {upto : Int} {pfx : Str} {i : Nat}
    (h : sessionLastMatch hs upto pfx i) :
    lastHistory hs upto pfx = ((i : Int), hs.getD i []) := by
  obtain ⟨hiu, hmatch, hmax⟩ := h
  have hiu' : i < upto.toNat := by omega
  obtain ⟨j, l, he⟩ := lastHistoryAux_complete hiu' hmatch
  obtain ⟨hjn, hl, hjq, hjmax⟩ := lastHistoryAux_some he
  have hij : i = j := by
    rcases Nat.lt_trichotomy i j with hlt | heq | hgt
    · have := hmax j (List.mem_range.mpr hjn) hlt
      rw [this] at hjq
      exact absurd hjq (by simp)
    · exact heq
    · have := hjmax i hgt hiu'
      rw [this] at hmatch
      exact absurd hmatch (by simp)
  subst hij
  unfold lastHistory
  rw [he, hl]

theorem firstHistoryAux_some {hs : List Str} {pfx : Str} :
    ∀ {k i j : Nat} {l : Str}, hs.length - i ≤ k → firstHistoryAux hs pfx i = some (j, l) →
      i ≤ j ∧ j < hs.length ∧ l = hs.getD j [] ∧ pfx.isPrefixOf (hs.getD j []) = true ∧
        ∀ m, i ≤ m → m < j → pfx.isPrefixOf (hs.getD m []) = false := by
  intro k
  induction k with
  | zero =>
    intro i j l hk h
    unfold firstHistoryAux at h
    rw [dif_neg (by omega)] at h
    exact absurd h (by simp)
  | succ k ih =>
    intro i j l hk h
    unfold firstHistoryAux at h
    by_cases hi : i < hs.length
    · rw [dif_pos hi] at h
      by_cases hp : pfx.isPrefixOf (hs.getD i []) = true
      · rw [if_pos hp] at h
        injection h with h'
        injection h' with h1 h2
        subst h1; subst h2
        exact ⟨Nat.le_refl _, hi, rfl, hp, fun m h1 h2 => by omega⟩
      · rw [if_neg hp] at h
        obtain ⟨h1, h2, h3, h4, h5⟩ := ih (by omega) h
        refine ⟨by omega, h2, h3, h4, ?_⟩
        intro m hm1 hm2
        have hcase : m = i ∨ i + 1 ≤ m := by omega
        rcases hcase with heq | hle
        · subst heq; exact bool_eq_false hp
        · exact h5 m hle hm2
    · rw [dif_neg hi] at h
      exact absurd h (by simp)

theorem firstHistoryAux_complete {hs : List Str} {pfx : Str} :
    ∀ {k i : Nat}, hs.length - i ≤ k →
      ∀ {m : Nat}, i ≤ m → m < hs.length → pfx.isPrefixOf (hs.getD m []) = true →
        ∃ j l, firstHistoryAux hs pfx i = some (j, l) := by
  intro k
  induction k with
  | zero => intro i hk m h1 h2 _; omega
  | succ k ih =>
    intro i hk m h1 h2 hq
    unfold firstHistoryAux
    rw [dif_pos (by omega)]
    by_cases hp : pfx.isPrefixOf (hs.getD i []) = true
    · exact ⟨i, hs.getD i [], by rw [if_pos hp]⟩
    · rw [if_neg hp]
      have hi' : i + 1 ≤ m := by
        have : i ≠ m := fun he => hp (he ▸ hq)
        omega
      exact ih (by omega) hi' h2 hq

theorem firstHistoryAux_none {hs : List Str} {pfx : Str} :
    ∀ {k i : Nat}, hs.length - i ≤ k →
      (∀ m, i ≤ m → m < hs.length → pfx.isPrefixOf (hs.getD m []) = false) →
      firstHistoryAux hs pfx i = none := by
  intro k
  induction k with
  | zero =>
    intro i hk _
    unfold firstHistoryAux
    rw [dif_neg (by omega)]
  | succ k ih =>
    intro i hk hall
    unfold firstHistoryAux
    by_cases hi : i < hs.length
    · rw [dif_pos hi,
          if_neg (by rw [hall i (Nat.le_refl _) hi]; exact Bool.false_ne_true)]
      exact ih (by omega) (fun m h1 h2 => hall m (by omega) h2)
    · rw [dif_neg hi]

/-- The scan `firstHistory` computes exactly the spec notion of "earliest match at or
after `fro`", for the in-range starting points the caller produces. -/
theorem firstHistory_of_sessionFirstMatch {hs : List Str} {fro : Int} {pfx : Str} {i : Nat}
    (hfro : 0 ≤ fro) (h : sessionFirstMatch hs fro pfx i) :
    firstHistory hs fro pfx = ((i : Int), hs.getD i []) := by
  obtain ⟨hfi, hilen, hmatch, hmin⟩ := h
  have hfi' : fro.toNat ≤ i := by omega
  obtain ⟨j, l, he⟩ := firstHistoryAux_complete (Nat.le_refl _) hfi' hilen hmatch
  obtain ⟨hj1, hj2, hj3, hj4, hj5⟩ := firstHistoryAux_some (Nat.le_refl _) he
  have hij : i = j := by
    rcases Nat.lt_trichotomy i j with hlt | heq | hgt
    · have := hj5 i hfi' hlt
      rw [this] at hmatch
      exact absurd hmatch (by simp)
    · exact heq
    · have := hmin j (List.mem_range.mpr hgt) (by omega)
      rw [this] at hj4
      exact absurd hj4 (by simp)
  subst hij
  unfold firstHistory
  rw [he, hj3]

/-! ### Claims C1, C2, C3: the history navigator -/

/-- Claim C1: `prev()` scans session history backward from `current`
(only when `current > 0`) for the most recent entry starting with the
search text and jumps to it; otherwise — including a session miss — it
queries the store at `cmdSeq + min(0, current)` and on success jumps to
`(matchedSeq - cmdSeq, matchedText)`; when neither tier matches, the
cursor is unchanged and `prev()` fails. -/
theorem prevHistory_spec (ed : Editor) :
    (∀ i : Nat, 0 < ed.state.history.current →
      sessionLastMatch ed.histories ed.state.history.current ed.state.history.pfx i →
      ed.prevHistory = (ed.withHistory (ed.state.history.jump (i : Int) (ed.histories.getD i [])), true))
    ∧
    ((∀ j ∈ List.range ed.state.history.current.toNat,
        ed.state.history.pfx.isPrefixOf (ed.histories.getD j []) = false) →
      (∀ st, ed.store = some st →
        ∀ i l, st.lastCmd (ed.cmdSeq + min 0 ed.state.history.current) ed.state.history.pfx = some (i, l) →
          ed.prevHistory = (ed.withHistory (ed.state.history.jump (i - ed.cmdSeq) l), true))
      ∧
      ((∀ st, ed.store = some st →
          st.lastCmd (ed.cmdSeq + min 0 ed.state.history.current) ed.state.history.pfx = none) →
        ed.prevHistory = (ed, false))) := by
  constructor
  · intro i h0 hm
    have hlast := lastHistory_of_sessionLastMatch hm
    simp [Editor.prevHistory, if_pos h0, hlast, Int.natCast_nonneg]
  · intro hmiss
    have hsession : ∀ hc : 0 < ed.state.history.current,
        lastHistory ed.histories ed.state.history.current ed.state.history.pfx = (-1, []) := by
      intro hc
      unfold lastHistory
      rw [lastHistoryAux_none (fun j hj => hmiss j (List.mem_range.mpr hj))]
    constructor
    · intro st hst i l hcmd
      by_cases h0 : 0 < ed.state.history.current
      · simp [Editor.prevHistory, if_pos h0, hsession h0, hst, hcmd]
      · simp [Editor.prevHistory, if_neg h0, hst, hcmd]
    · intro hsnone
      rcases hstore : ed.store with _ | st
      · by_cases h0 : 0 < ed.state.history.current
        · simp [Editor.prevHistory, if_pos h0, hsession h0, hstore]
        · simp [Editor.prevHistory, if_neg h0, hstore]
      · by_cases h0 : 0 < ed.state.history.current
        · simp [Editor.prevHistory, if_pos h0, hsession h0, hstore, hsnone st hstore]
        · simp [Editor.prevHistory, if_neg h0, hstore, hsnone st hstore]

/-- A session-tier hit exercising `prevHistory_spec`. -/
def edW1 : Editor :=
  { histories := ["ls".data, "echo hi".data], store := none, cmdSeq := 0,
    state := { history := { current := 2, pfx := "ls".data, line := [] } } }

theorem prevHistory_spec_witness :
    edW1.prevHistory = (edW1.withHistory (edW1.state.history.jump ((0 : Nat) : Int) (edW1.histories.getD 0 [])), true) :=
  (prevHistory_spec edW1).1 0 (by decide) (by simp only [sessionLastMatch]; decide)

/-- Claim C2: `next()` queries the store (only when `current < -1` and a
store exists) for the earliest persisted entry at or after
`cmdSeq + current + 1` and jumps on success; otherwise it scans session
history forward from `max(0, current + 1)` for the earliest match; when
neither tier matches, the cursor is unchanged and `next()` fails. -/
theorem nextHistory_spec (ed : Editor) :
    (∀ st, ed.store = some st → ed.state.history.current < -1 →
      ∀ i l, st.firstCmd (ed.cmdSeq + ed.state.history.current + 1) ed.state.history.pfx = some (i, l) →
        ed.nextHistory = (ed.withHistory (ed.state.history.jump (i - ed.cmdSeq) l), true))
    ∧
    ((∀ st, ed.store = some st → ed.state.history.current < -1 →
        st.firstCmd (ed.cmdSeq + ed.state.history.current + 1) ed.state.history.pfx = none) →
      (∀ i : Nat, sessionFirstMatch ed.histories (max 0 (ed.state.history.current + 1)) ed.state.history.pfx i →
        ed.nextHistory = (ed.withHistory (ed.state.history.jump (i : Int) (ed.histories.getD i [])), true))
      ∧
      ((∀ i ∈ List.range ed.histories.length, max 0 (ed.state.history.current + 1) ≤ (i : Int) →
          ed.state.history.pfx.isPrefixOf (ed.histories.getD i []) = false) →
        ed.nextHistory = (ed, false))) := by
  constructor
  · intro st hst hcur i l hcmd
    simp [Editor.nextHistory, hst, if_pos hcur, hcmd]
  · intro hmiss
    constructor
    · intro i hm
      have hfirst := firstHistory_of_sessionFirstMatch (le_max_left 0 _) hm
      rcases hstore : ed.store with _ | st
      · simp [Editor.nextHistory, hstore, hfirst, Int.natCast_nonneg]
      · by_cases hcur : ed.state.history.current < -1
        · simp [Editor.nextHistory, hstore, if_pos hcur, hmiss st hstore hcur, hfirst,
                Int.natCast_nonneg]
        · simp [Editor.nextHistory, hstore, if_neg hcur, hfirst, Int.natCast_nonneg]
    · intro hnos
      have hfnone : firstHistory ed.histories (max 0 (ed.state.history.current + 1)) ed.state.history.pfx = (-1, []) := by
        unfold firstHistory
        rw [firstHistoryAux_none (Nat.le_refl _) (fun m h1 h2 =>
          hnos m (List.mem_range.mpr h2) (by omega))]
      rcases hstore : ed.store with _ | st
      · simp [Editor.nextHistory, hstore, hfnone]
      · by_cases hcur : ed.state.history.current < -1
        · simp [Editor.nextHistory, hstore, if_pos hcur, hmiss st hstore hcur, hfnone]
        · simp [Editor.nextHistory, hstore, if_neg hcur, hfnone]

/-- A store-tier hit exercising `nextHistory_spec`. -/
def stW2 : Store :=
  { lastCmd := fun _ _ => none, firstCmd := fun _ _ => some (3, "ls -x".data) }

/-- An editor browsing persisted history (`current < -1`) with `stW2`. -/
def edW2 : Editor :=
  { histories := [], store := some stW2, cmdSeq := 10,
    state := { history := { current := -5, pfx := "ls".data, line := [] } } }

theorem nextHistory_spec_witness :
    edW2.nextHistory = (edW2.withHistory (edW2.state.history.jump ((3 : Int) - edW2.cmdSeq) ("ls -x".data)), true) :=
  (nextHistory_spec edW2).1 stW2 rfl (by decide) 3 ("ls -x".data) rfl

/-- The claim C3 scenario exactly as stated: session history
`["ls", "cd /tmp", "ls -la"]`, no store (so `cmdSeq = -1`, the sentinel
`NewEditor` uses without a store), History mode, cursor freshly
initialized with `current = 0` and search text `"ls"`. -/
def edC3 : Editor :=
  { histories := ["ls".data, "cd /tmp".data, "ls -la".data], store := none, cmdSeq := -1,
    state := { mode := .history, history := { current := 0, pfx := "ls".data, line := [] } } }

/-- Counterexample to claim C3: with the cursor at `current = 0` and no
store, the very first `prev()` already fails and leaves the editor
unchanged — the session tier is scanned only when `current > 0`, so the
claimed successful first and second calls do not happen. -/
theorem prevHistory_c3_counterexample :
    edC3.prevHistory = (edC3, false) ∧ (edC3.prevHistory).2 ≠ true :=
  ⟨rfl, by decide⟩

/-- The C3 editor with the cursor starting at the session length, the
initialization the backward scan actually requires. -/
def edC3A : Editor :=
  { edC3 with state := { edC3.state with history := { edC3.state.history with current := 3 } } }

/-- First `prev()` from `current = 3`. -/
def edC3A1 : Editor := (edC3A.prevHistory).1

/-- Second `prev()`. -/
def edC3A2 : Editor := (edC3A1.prevHistory).1

/-- Claim C3 amended: with the same session history, no store and search
text `"ls"`, but the cursor initialized at `current = 3` (the session
history length), the first `prev()` succeeds (selecting `"ls -la"`), the
second yields line `"ls"`, and the third fails leaving the cursor — and
the whole editor — unchanged. -/
theorem prevHistory_c3_amended :
    (edC3A.prevHistory).2 = true ∧ edC3A1.state.history.line = "ls -la".data ∧
    (edC3A1.prevHistory).2 = true ∧ edC3A2.state.history.line = "ls".data ∧
    edC3A2.prevHistory = (edC3A2, false) :=
  ⟨by decide, by decide, by decide, by decide, rfl⟩

/-! ### Claims C5, C8, C10: editing-state mutators -/

/-- The dot invariant of the spec: `0 ≤ dot ≤ len(line)`. -/
def EditorState.dotInv (st : EditorState) : Prop :=
  0 ≤ st.dot ∧ st.dot ≤ (st.line.length : Int)

theorem insertAtDot_dotInv (ed : Editor) (h : ed.state.dotInv) (text : Str) :
    (ed.insertAtDot text).state.dotInv := by
  obtain ⟨h0, h1⟩ := h
  have hd : ed.state.dot.toNat ≤ ed.state.line.length := by omega
  simp only [Editor.insertAtDot, Editor.setState, EditorState.dotInv,
    List.length_append, List.length_take, List.length_drop]
  rw [Nat.min_eq_left hd]
  push_cast
  omega

/-- The C5 scenario exactly as stated: buffer `"cat "`, `dot = 3`, the
selected candidate text `"foo.txt"`. -/
def edC5 : Editor :=
  { state := { line := "cat ".data, dot := 3, mode := .completion,
               completion := some { current := 0, candidates := [{ sourceText := "foo.txt".data }] } } }

/-- Counterexample to claim C5: accepting `"foo.txt"` in buffer `"cat "`
at `dot = 3` inserts at offset 3, producing `"catfoo.txt "` with
`dot = 10` — not the claimed `"cat foo.txt"` with `dot = 11`. -/
theorem acceptCompletion_c5_counterexample :
    (edC5.acceptCompletion).state.line = "catfoo.txt ".data ∧
    (edC5.acceptCompletion).state.dot = 10 ∧
    (edC5.acceptCompletion).state.line ≠ "cat foo.txt".data ∧
    (edC5.acceptCompletion).state.dot ≠ 11 := by
  refine ⟨by decide, by decide, by decide, by decide⟩

/-- Claim C5 amended: accepting a completion inserts the selected
candidate's text at the dot — `line = line[:dot] ++ text ++ line[dot:]`,
`dot = dot + len(text)` — returns to Insert mode and discards the
overlay; the claimed concrete outcome (`"cat foo.txt"`, `dot = 11`)
arises at `dot = 4`, the end of buffer `"cat "`, not at `dot = 3`. -/
theorem acceptCompletion_inserts (ed : Editor) (c : Completion)
    (hc : ed.state.completion = some c)
    (hlo : 0 ≤ c.current) (hhi : c.current < (c.candidates.length : Int)) :
    (ed.acceptCompletion).state.line =
      ed.state.line.take ed.state.dot.toNat
        ++ (c.candidates.getD c.current.toNat ⟨[]⟩).sourceText
        ++ ed.state.line.drop ed.state.dot.toNat
    ∧ (ed.acceptCompletion).state.dot =
        ed.state.dot + ((c.candidates.getD c.current.toNat ⟨[]⟩).sourceText.length : Int)
    ∧ (ed.acceptCompletion).state.mode = .insert
    ∧ (ed.acceptCompletion).state.completion = none := by
  simp [Editor.acceptCompletion, hc, if_pos (And.intro hlo hhi), Editor.insertAtDot,
    Editor.setState]

/-- The amended C5 scenario: same buffer and candidate, `dot = 4`. -/
def edC5A : Editor :=
  { state := { line := "cat ".data, dot := 4, mode := .completion,
               completion := some { current := 0, candidates := [{ sourceText := "foo.txt".data }] } } }

theorem acceptCompletion_inserts_witness :
    (edC5A.acceptCompletion).state.line = "cat foo.txt".data
    ∧ (edC5A.acceptCompletion).state.dot = 11
    ∧ (edC5A.acceptCompletion).state.mode = .insert
    ∧ (edC5A.acceptCompletion).state.completion = none :=
  acceptCompletion_inserts edC5A
    { current := 0, candidates := [{ sourceText := "foo.txt".data }] }
    rfl (by decide) (by decide)

/-- Claim C10: `acceptCompletion` indexes the candidate list only under
the guard `0 ≤ current < len(candidates)` (in bounds as a list index);
out of that range it leaves `line` and `dot` unchanged; in all cases it
discards the overlay and returns to Insert mode. -/
theorem acceptCompletion_safe (ed : Editor) (c : Completion)
    (hc : ed.state.completion = some c) :
    ((0 ≤ c.current ∧ c.current < (c.candidates.length : Int)) →
      c.current.toNat < c.candidates.length)
    ∧ (¬ (0 ≤ c.current ∧ c.current < (c.candidates.length : Int)) →
      (ed.acceptCompletion).state.line = ed.state.line ∧
      (ed.acceptCompletion).state.dot = ed.state.dot)
    ∧ (ed.acceptCompletion).state.completion = none
    ∧ (ed.acceptCompletion).state.mode = .insert := by
  refine ⟨fun hin => by omega, fun hout => ?_, ?_, ?_⟩
  · simp [Editor.acceptCompletion, hc, if_neg hout, Editor.setState]
  · by_cases hin : 0 ≤ c.current ∧ c.current < (c.candidates.length : Int)
    · simp [Editor.acceptCompletion, hc, if_pos hin, Editor.setState]
    · simp [Editor.acceptCompletion, hc, if_neg hin, Editor.setState]
  · by_cases hin : 0 ≤ c.current ∧ c.current < (c.candidates.length : Int)
    · simp [Editor.acceptCompletion, hc, if_pos hin, Editor.setState]
    · simp [Editor.acceptCompletion, hc, if_neg hin, Editor.setState]

/-- An out-of-range selection exercising `acceptCompletion_safe`. -/
def edC10 : Editor :=
  { state := { line := "cat ".data, dot := 4, mode := .completion,
               completion := some { current := 5, candidates := [{ sourceText := "foo.txt".data }] } } }

theorem acceptCompletion_safe_witness :
    ((edC10.acceptCompletion).state.line = edC10.state.line ∧
      (edC10.acceptCompletion).state.dot = edC10.state.dot)
    ∧ (edC10.acceptCompletion).state.completion = none
    ∧ (edC10.acceptCompletion).state.mode = .insert :=
  have h := acceptCompletion_safe edC10
    { current := 5, candidates := [{ sourceText := "foo.txt".data }] } rfl
  ⟨h.2.1 (by decide), h.2.2.1, h.2.2.2⟩

/-- Claim C8: every state-mutating editor operation — `insertAtDot` with
any text, `acceptCompletion`, `acceptHistory`, and the teardown reset —
preserves `0 ≤ dot ≤ len(line)`. -/
theorem editor_dot_invariant (ed : Editor) (h : ed.state.dotInv) :
    (∀ text : Str, (ed.insertAtDot text).state.dotInv)
    ∧ (ed.acceptCompletion).state.dotInv
    ∧ (ed.acceptHistory).state.dotInv
    ∧ (∀ cfg : LoopCfg, ∀ rErr : Option GoError, ∀ n : Nat, ∀ adds : List Str,
        ((finishReadLine cfg rErr { ed := ed, renders := n, storeAdds := adds }).1).ed.state.dotInv) := by
  refine ⟨insertAtDot_dotInv ed h, ?_, ?_, ?_⟩
  · rcases hc : ed.state.completion with _ | c
    · simpa [Editor.acceptCompletion, hc, Editor.setState, EditorState.dotInv] using h
    · by_cases hin : 0 ≤ c.current ∧ c.current < (c.candidates.length : Int)
      · have := insertAtDot_dotInv ed h (c.candidates.getD c.current.toNat ⟨[]⟩).sourceText
        simpa [Editor.acceptCompletion, hc, if_pos hin, Editor.setState,
          EditorState.dotInv] using this
      · simpa [Editor.acceptCompletion, hc, if_neg hin, Editor.setState,
          EditorState.dotInv] using h
  · simp [Editor.acceptHistory, Editor.setState, EditorState.dotInv]
  · intro cfg rErr n adds
    simp [finishReadLine, doRefresh, Editor.setState, EditorState.dotInv]

/-- A plain state exercising `editor_dot_invariant`. -/
def edW8 : Editor := { state := { line := "echo".data, dot := 2 } }

theorem editor_dot_invariant_witness :
    (edW8.insertAtDot ("xy".data)).state.dotInv ∧ (edW8.acceptHistory).state.dotInv :=
  have h := editor_dot_invariant edW8 (by simp only [EditorState.dotInv]; decide)
  ⟨h.1 ("xy".data), h.2.2.1⟩

/-! ### Claim C6: interrupt handling -/

/-- The state the SIGINT arm produces: a zero `editorState` except for
the saved terminal snapshot and the `isExternal` cache. -/
def sigintReset (s : LoopSt) : LoopSt :=
  { s with ed := s.ed.setState { savedTermios := s.ed.state.savedTermios, isExternal := s.ed.state.isExternal } }

/-- Claim C6: an interrupt mid-read resets the editing state to a fresh
value — empty line, dot 0, Insert mode, no overlays, empty tips, fresh
cursor and tokens — keeping exactly `savedTermios` and the `isExternal`
cache; it appends nothing to session history or the store log, leaves the
store handle alone, and continues the loop instead of returning. -/
theorem sigint_resets (cfg : LoopCfg) (s : LoopSt) :
    handleEvent cfg s (.sig .sigint) = .cont (sigintReset s)
    ∧ (sigintReset s).ed.state.line = []
    ∧ (sigintReset s).ed.state.dot = 0
    ∧ (sigintReset s).ed.state.mode = .insert
    ∧ (sigintReset s).ed.state.completion = none
    ∧ (sigintReset s).ed.state.navigation = none
    ∧ (sigintReset s).ed.state.tips = []
    ∧ (sigintReset s).ed.state.tokens = []
    ∧ (sigintReset s).ed.state.history = {}
    ∧ (sigintReset s).ed.state.savedTermios = s.ed.state.savedTermios
    ∧ (sigintReset s).ed.state.isExternal = s.ed.state.isExternal
    ∧ (sigintReset s).ed.histories = s.ed.histories
    ∧ (sigintReset s).ed.store = s.ed.store
    ∧ (sigintReset s).storeAdds = s.storeAdds :=
  ⟨rfl, rfl, rfl, rfl, rfl, rfl, rfl, rfl, rfl, rfl, rfl, rfl, rfl, rfl⟩

/-! ### Claim C4: append-on-accept -/

/-- The accept condition of the `exitReadLine` arm: a non-empty line with
no error and no EOF marker. -/
def acceptedLine (lr : LineRead) : Prop :=
  lr.EOF = false ∧ lr.Err = none ∧ lr.Line ≠ []

instance (lr : LineRead) : Decidable (acceptedLine lr) := by
  unfold acceptedLine; infer_instance

/-- The frame the loop preserves away from the exit arm: session history,
the store handle, and the store-append log are untouched. -/
def framePreserved (s s' : LoopSt) : Prop :=
  s'.ed.histories = s.ed.histories ∧ s'.storeAdds = s.storeAdds ∧ s'.ed.store = s.ed.store

/-- The exit-arm effect on an accepted line: exactly one session append,
and exactly one store append when a store is present. -/
def appendFrame (s s' : LoopSt) (line : Str) : Prop :=
  s'.ed.histories = s.ed.histories ++ [line]
  ∧ s'.storeAdds = s.storeAdds ++ (match s.ed.store with | some _ => [line] | none => [])
  ∧ s'.ed.store = s.ed.store

/-- History bookkeeping allowed of one loop step. -/
def stepFrame (s : LoopSt) : StepRes → Prop
  | .cont s' => framePreserved s s'
  | .fuelOut s' => framePreserved s s'
  | .exit s' lr => (acceptedLine lr → appendFrame s s' lr.Line)
    ∧ (¬ acceptedLine lr → framePreserved s s')

/-- History bookkeeping allowed of a whole run. -/
def runFrame (s : LoopSt) : RunRes → Prop
  | .pending s' => framePreserved s s'
  | .fuelOut s' => framePreserved s s'
  | .returned s' lr => (acceptedLine lr → appendFrame s s' lr.Line)
    ∧ (¬ acceptedLine lr → framePreserved s s')

theorem framePreserved_refl (s : LoopSt) : framePreserved s s := ⟨rfl, rfl, rfl⟩

theorem framePreserved_trans {s t u : LoopSt}
    (h1 : framePreserved s t) (h2 : framePreserved t u) : framePreserved s u := by
  obtain ⟨a1, a2, a3⟩ := h1
  obtain ⟨b1, b2, b3⟩ := h2
  exact ⟨b1.trans a1, b2.trans a2, b3.trans a3⟩

theorem appendFrame_after {s t u : LoopSt} {line : Str}
    (h1 : framePreserved s t) (h2 : appendFrame t u line) : appendFrame s u line := by
  obtain ⟨a1, a2, a3⟩ := h1
  obtain ⟨b1, b2, b3⟩ := h2
  refine ⟨by rw [b1, a1], by rw [b2, a2, a3], b3.trans a3⟩

theorem stepFrame_comp {s t : LoopSt} {r : StepRes}
    (h1 : framePreserved s t) (h2 : stepFrame t r) : stepFrame s r := by
  cases r with
  | cont u => exact framePreserved_trans h1 h2
  | fuelOut u => exact framePreserved_trans h1 h2
  | exit u lr =>
    exact ⟨fun ha => appendFrame_after h1 (h2.1 ha),
           fun ha => framePreserved_trans h1 (h2.2 ha)⟩

theorem setState_framePreserved (s : LoopSt) (ed' : Editor) (st : EditorState)
    (hed : ed' = s.ed) : framePreserved s { s with ed := ed'.setState st } := by
  subst hed
  exact ⟨rfl, rfl, rfl⟩

theorem pushTipS_framePreserved (s : LoopSt) (msg : Str) :
    framePreserved s (pushTipS s msg) := ⟨rfl, rfl, rfl⟩

theorem doRefresh_framePreserved (cfg : LoopCfg) (s : LoopSt) :
    framePreserved s (doRefresh cfg s).1 := ⟨rfl, rfl, rfl⟩

theorem doAppendHistory_appendFrame (s : LoopSt) (line : Str) :
    appendFrame s (doAppendHistory s line) line := by
  obtain ⟨⟨hists, store, seq, st⟩, renders, adds⟩ := s
  cases store <;> exact ⟨rfl, rfl, rfl⟩

theorem lookupKey_frame (cfg : LoopCfg) (k : Key) :
    ∀ (fuel : Nat) (s : LoopSt), stepFrame s (lookupKey cfg k fuel s) := by
  intro fuel
  induction fuel with
  | zero => intro s; exact framePreserved_refl s
  | succ fuel ih =>
    intro s
    simp only [lookupKey]
    split
    · exact pushTipS_framePreserved s _
    · split
      · exact ⟨rfl, rfl, rfl⟩
      · split
        · exact ⟨fun ha => absurd ha.2.1 (by simp), fun _ => ⟨rfl, rfl, rfl⟩⟩
        · exact stepFrame_comp ⟨rfl, rfl, rfl⟩ (ih _)
      · split
        · next hcond =>
            exact ⟨fun _ => appendFrame_after ⟨rfl, rfl, rfl⟩ (doAppendHistory_appendFrame _ _),
                   fun hna => absurd hcond hna⟩
        · next hcond =>
            exact ⟨fun ha => absurd ha hcond, fun _ => ⟨rfl, rfl, rfl⟩⟩

theorem handleEvent_frame (cfg : LoopCfg) (s : LoopSt) (ev : LoopEvent) :
    stepFrame s (handleEvent cfg s ev) := by
  cases ev with
  | extMap m => exact ⟨rfl, rfl, rfl⟩
  | sig sg =>
    cases sg with
    | sigint => exact ⟨rfl, rfl, rfl⟩
    | sigwinch => exact framePreserved_refl s
    | sigchld => exact framePreserved_refl s
    | other name => exact pushTipS_framePreserved s _
  | one o =>
    simp only [handleEvent]
    split
    · exact pushTipS_framePreserved s _
    · split
      · exact framePreserved_refl s
      · exact lookupKey_frame cfg o.key cfg.rpFuel s

theorem loopIter_frame (cfg : LoopCfg) (s : LoopSt) (ev : LoopEvent) :
    stepFrame s (loopIter cfg s ev) := by
  simp only [loopIter]
  split
  · exact ⟨fun ha => absurd ha.2.1 (by simp), fun _ => ⟨rfl, rfl, rfl⟩⟩
  · exact stepFrame_comp ⟨rfl, rfl, rfl⟩ (handleEvent_frame cfg _ ev)

theorem runLoop_frame (cfg : LoopCfg) :
    ∀ (evs : List LoopEvent) (s : LoopSt), runFrame s (runLoop cfg s evs) := by
  intro evs
  induction evs with
  | nil => intro s; exact framePreserved_refl s
  | cons ev evs ih =>
    intro s
    simp only [runLoop]
    cases hstep : loopIter cfg s ev with
    | cont s' =>
      have hf : framePreserved s s' := by
        have := loopIter_frame cfg s ev
        rw [hstep] at this
        exact this
      have hrf := ih s'
      simp only []
      cases hrun : runLoop cfg s' evs with
      | pending u =>
        rw [hrun] at hrf
        exact framePreserved_trans hf hrf
      | fuelOut u =>
        rw [hrun] at hrf
        exact framePreserved_trans hf hrf
      | returned u lr =>
        rw [hrun] at hrf
        exact ⟨fun ha => appendFrame_after hf (hrf.1 ha),
               fun ha => framePreserved_trans hf (hrf.2 ha)⟩
    | exit s' lr =>
      have := loopIter_frame cfg s ev
      rw [hstep] at this
      exact this
    | fuelOut s' =>
      have := loopIter_frame cfg s ev
      rw [hstep] at this
      exact this

/-- Claim C4: a read that returns through the loop appends its line to
session history — with exactly one `store.AddCmd` call when a store is
present — exactly when the exit result carries a non-empty line, no
error and no EOF; a read returning with EOF, an error, or an empty line
appends nothing to session history or the store. -/
theorem readline_append_spec (cfg : LoopCfg) (s : LoopSt) (evs : List LoopEvent)
    (s' : LoopSt) (lr : LineRead) (h : runLoop cfg s evs = .returned s' lr) :
    (acceptedLine lr →
      s'.ed.histories = s.ed.histories ++ [lr.Line]
      ∧ s'.storeAdds = s.storeAdds ++ (match s.ed.store with | some _ => [lr.Line] | none => []))
    ∧ (¬ acceptedLine lr →
      s'.ed.histories = s.ed.histories ∧ s'.storeAdds = s.storeAdds) := by
  have hrf := runLoop_frame cfg evs s
  rw [h] at hrf
  exact ⟨fun ha => ⟨(hrf.1 ha).1, (hrf.1 ha).2.1⟩, fun ha => ⟨(hrf.2 ha).1, (hrf.2 ha).2.1⟩⟩

/-- The loop state carried by a loop-step outcome. -/
def StepRes.stOf : StepRes → LoopSt
  | .cont s => s
  | .exit s _ => s
  | .fuelOut s => s

/-- The loop state carried by a run outcome. -/
def RunRes.stOf : RunRes → LoopSt
  | .pending s => s
  | .returned s _ => s
  | .fuelOut s => s

/-- The result carried by a run outcome (`{}` when still running). -/
def RunRes.lrOf : RunRes → LineRead
  | .returned _ lr => lr
  | _ => {}

/-- A binding table accepting with the fixed line `"ls"` from Insert
mode. -/
def cfgW4 : LoopCfg :=
  { p := [], rp := [], tokensOf := fun _ => [], renderErr := fun _ => none,
    bindings := fun m =>
      match m with
      | .insert => some (fun _ st =>
          { st with nextAction := { actionType := .exitReadLine, returnValue := { Line := "ls".data } } })
      | _ => none,
    rpFuel := 1 }

/-- A store that never matches; only its presence matters here. -/
def stW4 : Store := { lastCmd := fun _ _ => none, firstCmd := fun _ _ => none }

/-- Mid-read state with one prior session entry and a store present. -/
def s0W4 : LoopSt :=
  { ed := { histories := ["old".data], store := some stW4, cmdSeq := 0, state := { active := true } },
    renders := 0, storeAdds := [] }

/-- One key event that triggers the accepting binding. -/
def evsW4 : List LoopEvent := [.one {}]

/-- The concrete accepted run exercising `readline_append_spec`. -/
def runW4 : RunRes := runLoop cfgW4 s0W4 evsW4

theorem readline_append_spec_witness :
    (RunRes.stOf runW4).ed.histories = ["old".data] ++ ["ls".data]
    ∧ (RunRes.stOf runW4).storeAdds = [] ++ ["ls".data] := by
  have h := readline_append_spec cfgW4 s0W4 evsW4 (RunRes.stOf runW4) (RunRes.lrOf runW4) rfl
  have ha : acceptedLine (RunRes.lrOf runW4) := by decide
  exact ⟨(h.1 ha).1, (h.1 ha).2⟩

/-! ### Claim C7: terminal-session lifecycle -/

/-- Modelled from the spec: dispatched actions edit the transient editing
state but never touch the saved terminal snapshot, which is owned by the
session lifecycle. -/
def PreservesTermios (cfg : LoopCfg) : Prop :=
  ∀ m kb, cfg.bindings m = some kb → ∀ k st, (kb k st).savedTermios = st.savedTermios

theorem doRefresh_saved (cfg : LoopCfg) (s : LoopSt) :
    ((doRefresh cfg s).1).ed.state.savedTermios = s.ed.state.savedTermios := by
  simp only [doRefresh, Editor.setState]
  split <;> rfl

theorem doAppendHistory_saved (s : LoopSt) (line : Str) :
    (doAppendHistory s line).ed.state.savedTermios = s.ed.state.savedTermios := by
  obtain ⟨⟨hists, store, seq, st⟩, renders, adds⟩ := s
  cases store <;> rfl

theorem lookupKey_saved {cfg : LoopCfg} (hpres : PreservesTermios cfg) (k : Key) :
    ∀ (fuel : Nat) (s : LoopSt),
      ((lookupKey cfg k fuel s).stOf).ed.state.savedTermios = s.ed.state.savedTermios := by
  intro fuel
  induction fuel with
  | zero => intro s; rfl
  | succ fuel ih =>
    intro s
    simp only [lookupKey]
    split
    · rfl
    · next kb hb =>
      split
      · exact hpres _ _ hb _ _
      · split
        · exact (doRefresh_saved cfg _).trans (hpres _ _ hb _ _)
        · exact (ih _).trans ((doRefresh_saved cfg _).trans (hpres _ _ hb _ _))
      · split
        · exact (doAppendHistory_saved _ _).trans (hpres _ _ hb _ _)
        · exact hpres _ _ hb _ _

theorem handleEvent_saved {cfg : LoopCfg} (hpres : PreservesTermios cfg)
    (s : LoopSt) (ev : LoopEvent) :
    ((handleEvent cfg s ev).stOf).ed.state.savedTermios = s.ed.state.savedTermios := by
  cases ev with
  | extMap m => rfl
  | sig sg => cases sg <;> rfl
  | one o =>
    simp only [handleEvent]
    split
    · rfl
    · split
      · rfl
      · exact lookupKey_saved hpres o.key cfg.rpFuel s

theorem loopIter_saved {cfg : LoopCfg} (hpres : PreservesTermios cfg)
    (s : LoopSt) (ev : LoopEvent) :
    ((loopIter cfg s ev).stOf).ed.state.savedTermios = s.ed.state.savedTermios := by
  simp only [loopIter]
  split
  · exact doRefresh_saved cfg _
  · exact (handleEvent_saved hpres _ ev).trans (doRefresh_saved cfg _)

theorem runLoop_saved {cfg : LoopCfg} (hpres : PreservesTermios cfg) :
    ∀ (evs : List LoopEvent) (s : LoopSt),
      ((runLoop cfg s evs).stOf).ed.state.savedTermios = s.ed.state.savedTermios := by
  intro evs
  induction evs with
  | nil => intro s; rfl
  | cons ev evs ih =>
    intro s
    simp only [runLoop]
    cases hstep : loopIter cfg s ev with
    | cont s' =>
      have hstep' := loopIter_saved hpres s ev
      rw [hstep] at hstep'
      exact (ih s').trans hstep'
    | exit s' lr =>
      have hstep' := loopIter_saved hpres s ev
      rw [hstep] at hstep'
      exact hstep'
    | fuelOut s' =>
      have hstep' := loopIter_saved hpres s ev
      rw [hstep] at hstep'
      exact hstep'

theorem finishReadLine_effects (cfg : LoopCfg) (rErr : Option GoError) (s : LoopSt)
    (t : Termios) (hst : s.ed.state.savedTermios = some t) :
    (finishReadLine cfg rErr s).2.1 =
      [Effect.render, Effect.writeNewline, Effect.readerQuit, Effect.writeAutowrapOn,
       Effect.applyTermios t]
    ∧ (finishReadLine cfg rErr s).2.2 =
      (match cfg.renderErr s.renders with | some e => [e] | none => [])
      ++ (match rErr with
          | some e => [("can not restore terminal attribute: ".data) ++ e]
          | none => []) := by
  constructor
  · simp only [finishReadLine, doRefresh_saved, Editor.setState, hst]
    rfl
  · simp only [finishReadLine, doRefresh, Editor.setState]

/-- Claim C7: teardown re-applies the saved snapshot exactly when setup
succeeded — on setup failure `ReadLine` returns an error result with no
teardown (empty effect trace) and the snapshot unset; on a completed
read the effect trace contains every teardown step (final render,
newline, stopping the event source, re-enabling autowrap, re-applying
the snapshot saved at setup) in order, for every render/restore oracle,
and the render and restore errors are folded into the result's `Err`
rather than aborting the remaining steps. -/
theorem readLine_teardown_spec (cfg : LoopCfg) (orc : ReadOracles) (ed0 : Editor)
    (evs : List LoopEvent) (hpres : PreservesTermios cfg) :
    (∀ lr ed effs, ReadLine cfg orc ed0 evs = .setupFailed lr ed effs →
      lr.Err ≠ none ∧ effs = [] ∧ ed.state.savedTermios = none)
    ∧ (∀ lr s effs, ReadLine cfg orc ed0 evs = .finished lr s effs →
      ∃ t s1 lr1, orc.setup = some t
        ∧ runLoop cfg (initLoopSt ed0 t) evs = .returned s1 lr1
        ∧ effs = [Effect.applyTermios (rawMode t), Effect.writeSetupSeq, Effect.render,
            Effect.writeNewline, Effect.readerQuit, Effect.writeAutowrapOn, Effect.applyTermios t]
        ∧ lr.Line = lr1.Line ∧ lr.EOF = lr1.EOF
        ∧ lr.Err = ((finishReadLine cfg orc.restoreErr s1).2.2).foldl
            (fun a e => catError a (some e)) lr1.Err
        ∧ (finishReadLine cfg orc.restoreErr s1).2.2 =
            (match cfg.renderErr s1.renders with | some e => [e] | none => [])
            ++ (match orc.restoreErr with
                | some e => [("can not restore terminal attribute: ".data) ++ e]
                | none => [])) := by
  constructor
  · intro lr ed effs h
    unfold ReadLine at h
    rcases hsetup : orc.setup with _ | t
    · rw [hsetup] at h
      simp only [] at h
      injection h with h1 h2 h3
      subst h1; subst h2; subst h3
      exact ⟨by simp, rfl, rfl⟩
    · rw [hsetup] at h
      simp only [] at h
      by_cases happ : orc.setupApplyOk = true
      · rw [if_pos happ] at h
        cases hrun : runLoop cfg (initLoopSt ed0 t) evs with
        | pending s' => rw [hrun] at h; exact absurd h (by simp)
        | fuelOut s' => rw [hrun] at h; exact absurd h (by simp)
        | returned s' lr' => rw [hrun] at h; exact absurd h (by simp)
      · rw [if_neg happ] at h
        injection h with h1 h2 h3
        subst h1; subst h2; subst h3
        exact ⟨by simp, rfl, rfl⟩
  · intro lr s effs h
    unfold ReadLine at h
    rcases hsetup : orc.setup with _ | t
    · rw [hsetup] at h
      simp only [] at h
      exact absurd h (by simp)
    · rw [hsetup] at h
      simp only [] at h
      by_cases happ : orc.setupApplyOk = true
      · rw [if_pos happ] at h
        cases hrun : runLoop cfg (initLoopSt ed0 t) evs with
        | pending s' => rw [hrun] at h; exact absurd h (by simp)
        | fuelOut s' => rw [hrun] at h; exact absurd h (by simp)
        | returned s' lr' =>
          rw [hrun] at h
          simp only [] at h
          injection h with h1 h2 h3
          subst h1; subst h2; subst h3
          have hsv : s'.ed.state.savedTermios = some t := by
            have hx := runLoop_saved hpres evs (initLoopSt ed0 t)
            rw [hrun] at hx
            exact hx
          obtain ⟨he1, he2⟩ := finishReadLine_effects cfg orc.restoreErr s' t hsv
          exact ⟨t, s', lr', rfl, hrun, by rw [he1]; rfl, rfl, rfl, rfl, he2⟩
      · rw [if_neg happ] at h
        exact absurd h (by simp)

/-- The `LineRead` result carried by a `ReadLine` outcome. -/
def ReadLineRes.lrOf : ReadLineRes → LineRead
  | .setupFailed lr _ _ => lr
  | .finished lr _ _ => lr
  | _ => {}

/-- The final loop state carried by a `ReadLine` outcome. -/
def ReadLineRes.loopStOf : ReadLineRes → LoopSt
  | .pending s _ => s
  | .fuelOut s _ => s
  | .finished _ s _ => s
  | .setupFailed _ _ _ => { ed := {}, renders := 0, storeAdds := [] }

/-- The effect trace carried by a `ReadLine` outcome. -/
def ReadLineRes.effsOf : ReadLineRes → List Effect
  | .setupFailed _ _ e => e
  | .pending _ e => e
  | .fuelOut _ e => e
  | .finished _ _ e => e

/-- Whether a `ReadLine` outcome is a completed read. -/
def ReadLineRes.isFinished : ReadLineRes → Bool
  | .finished _ _ _ => true
  | _ => false

/-- A binding table whose only action is accepting the fixed line
`"ls"` from Insert mode. -/
def cfgW7 : LoopCfg :=
  { p := [], rp := [], tokensOf := fun _ => [], renderErr := fun _ => none,
    bindings := fun m =>
      match m with
      | .insert => some (fun _ st =>
          { st with nextAction := { actionType := .exitReadLine, returnValue := { Line := "ls".data } } })
      | _ => none,
    rpFuel := 1 }

theorem cfgW7_preserves : PreservesTermios cfgW7 := by
  intro m kb hkb k st
  cases m with
  | insert =>
    simp only [cfgW7] at hkb
    injection hkb with hk
    subst hk
    rfl
  | command => simp [cfgW7] at hkb
  | completion => simp [cfgW7] at hkb
  | navigation => simp [cfgW7] at hkb
  | history => simp [cfgW7] at hkb

/-- Syscall oracles where setup succeeds and restoring the snapshot
fails. -/
def orcW7 : ReadOracles :=
  { setup := some {}, setupApplyOk := true, restoreErr := some ("boom".data) }

/-- A fresh session editor. -/
def edW7 : Editor := {}

/-- One accepting key event. -/
def evsW7 : List LoopEvent := [.one {}]

/-- A completed read whose line was accepted and whose teardown restore
fails. -/
def runW7 : ReadLineRes := ReadLine cfgW7 orcW7 edW7 evsW7

theorem readLine_teardown_spec_witness :
    ∃ t s1 lr1, orcW7.setup = some t
      ∧ runLoop cfgW7 (initLoopSt edW7 t) evsW7 = RunRes.returned s1 lr1
      ∧ ReadLineRes.effsOf runW7 = [Effect.applyTermios (rawMode t), Effect.writeSetupSeq,
          Effect.render, Effect.writeNewline, Effect.readerQuit, Effect.writeAutowrapOn,
          Effect.applyTermios t]
      ∧ (ReadLineRes.lrOf runW7).Line = lr1.Line ∧ (ReadLineRes.lrOf runW7).EOF = lr1.EOF
      ∧ (ReadLineRes.lrOf runW7).Err = ((finishReadLine cfgW7 orcW7.restoreErr s1).2.2).foldl
          (fun a e => catError a (some e)) lr1.Err
      ∧ (finishReadLine cfgW7 orcW7.restoreErr s1).2.2 =
          (match cfgW7.renderErr s1.renders with | some e => [e] | none => [])
          ++ (match orcW7.restoreErr with
              | some e => [("can not restore terminal attribute: ".data) ++ e]
              | none => []) :=
  (readLine_teardown_spec cfgW7 orcW7 edW7 evsW7 cfgW7_preserves).2
    (ReadLineRes.lrOf runW7) (ReadLineRes.loopStOf runW7) (ReadLineRes.effsOf runW7) rfl

/-! ### Claim C9: the result is a tagged union -/

/-- How many of the three `LineRead` members are populated, counting
`Line` as populated when non-empty. -/
def LineRead.populatedCount (lr : LineRead) : Nat :=
  (if lr.Line = [] then 0 else 1) + (if lr.EOF then 1 else 0) + (if lr.Err = none then 0 else 1)

/-- Counterexample to claim C9: in the completed read `runW7` — a line
was accepted and teardown's snapshot restoration failed — the returned
`LineRead` has both a non-empty `Line` and a non-nil `Err` populated:
`finishReadLine` folds teardown errors into `Err` of the already-built
result instead of keeping the members exclusive. -/
theorem lineRead_c9_counterexample :
    ReadLineRes.isFinished runW7 = true
    ∧ (ReadLineRes.lrOf runW7).Line = "ls".data
    ∧ (ReadLineRes.lrOf runW7).Err ≠ none
    ∧ ¬ ((ReadLineRes.lrOf runW7).populatedCount ≤ 1) := by
  refine ⟨by decide, by decide, by decide, by decide⟩

/-- Modelled from the spec: the bindings only ever request exit results
with at most one populated member. -/
def ExitsTagged (cfg : LoopCfg) : Prop :=
  ∀ m kb, cfg.bindings m = some kb → ∀ k st,
    ((kb k st).nextAction.returnValue).populatedCount ≤ 1

theorem finishReadLine_errs (cfg : LoopCfg) (rErr : Option GoError) (s : LoopSt) :
    (finishReadLine cfg rErr s).2.2 =
      (match cfg.renderErr s.renders with | some e => [e] | none => [])
      ++ (match rErr with
          | some e => [("can not restore terminal attribute: ".data) ++ e]
          | none => []) := by
  simp only [finishReadLine, doRefresh, Editor.setState]

theorem lookupKey_tagged {cfg : LoopCfg} (hex : ExitsTagged cfg)
    (hrender : ∀ n, cfg.renderErr n = none) (k : Key) :
    ∀ (fuel : Nat) (s s' : LoopSt) (lr : LineRead),
      lookupKey cfg k fuel s = .exit s' lr → lr.populatedCount ≤ 1 := by
  intro fuel
  induction fuel with
  | zero => intro s s' lr h; exact absurd h (by simp [lookupKey])
  | succ fuel ih =>
    intro s s' lr h
    simp only [lookupKey] at h
    split at h
    · exact absurd h (by simp)
    · next kb hb =>
      split at h
      · exact absurd h (by simp)
      · split at h
        · next e heq =>
          simp only [doRefresh] at heq
          rw [hrender] at heq
          exact absurd heq (by simp)
        · exact ih _ _ _ h
      · split at h
        · injection h with h1 h2
          subst h2
          exact hex _ _ hb _ _
        · injection h with h1 h2
          subst h2
          exact hex _ _ hb _ _

theorem handleEvent_tagged {cfg : LoopCfg} (hex : ExitsTagged cfg)
    (hrender : ∀ n, cfg.renderErr n = none) (s : LoopSt) (ev : LoopEvent) :
    ∀ (s' : LoopSt) (lr : LineRead),
      handleEvent cfg s ev = .exit s' lr → lr.populatedCount ≤ 1 := by
  intro s' lr h
  cases ev with
  | extMap m => exact absurd h (by simp [handleEvent])
  | sig sg => cases sg <;> exact absurd h (by simp [handleEvent])
  | one o =>
    simp only [handleEvent] at h
    split at h
    · exact absurd h (by simp)
    · split at h
      · exact absurd h (by simp)
      · exact lookupKey_tagged hex hrender o.key cfg.rpFuel s s' lr h

theorem loopIter_tagged {cfg : LoopCfg} (hex : ExitsTagged cfg)
    (hrender : ∀ n, cfg.renderErr n = none) (s : LoopSt) (ev : LoopEvent) :
    ∀ (s' : LoopSt) (lr : LineRead),
      loopIter cfg s ev = .exit s' lr → lr.populatedCount ≤ 1 := by
  intro s' lr h
  simp only [loopIter] at h
  split at h
  · next e heq =>
    simp only [doRefresh] at heq
    rw [hrender] at heq
    exact absurd heq (by simp)
  · exact handleEvent_tagged hex hrender _ ev s' lr h

theorem runLoop_tagged {cfg : LoopCfg} (hex : ExitsTagged cfg)
    (hrender : ∀ n, cfg.renderErr n = none) :
    ∀ (evs : List LoopEvent) (s s' : LoopSt) (lr : LineRead),
      runLoop cfg s evs = .returned s' lr → lr.populatedCount ≤ 1 := by
  intro evs
  induction evs with
  | nil => intro s s' lr h; exact absurd h (by simp [runLoop])
  | cons ev evs ih =>
    intro s s' lr h
    simp only [runLoop] at h
    cases hstep : loopIter cfg s ev with
    | cont u =>
      rw [hstep] at h
      exact ih _ _ _ h
    | exit u lr0 =>
      rw [hstep] at h
      injection h with h1 h2
      subst h2
      exact loopIter_tagged hex hrender s ev u lr0 hstep
    | fuelOut u =>
      rw [hstep] at h
      exact absurd h (by simp)

/-- Claim C9 amended: the `LineRead` of a completed read has at most one
populated member provided teardown reports no error (and the bindings
only request tagged exit values); when the final render or the snapshot
restoration fails, the error is folded into `Err` and may coexist with a
populated `Line` or `EOF`. -/
theorem lineRead_tagged (cfg : LoopCfg) (orc : ReadOracles) (ed0 : Editor)
    (evs : List LoopEvent) (hex : ExitsTagged cfg)
    (hrender : ∀ n, cfg.renderErr n = none) (hrestore : orc.restoreErr = none) :
    (∀ lr ed effs, ReadLine cfg orc ed0 evs = .setupFailed lr ed effs → lr.populatedCount ≤ 1)
    ∧ (∀ lr s effs, ReadLine cfg orc ed0 evs = .finished lr s effs → lr.populatedCount ≤ 1) := by
  constructor
  · intro lr ed effs h
    unfold ReadLine at h
    rcases hsetup : orc.setup with _ | t
    · rw [hsetup] at h
      simp only [] at h
      injection h with h1 h2 h3
      subst h1
      decide
    · rw [hsetup] at h
      simp only [] at h
      by_cases happ : orc.setupApplyOk = true
      · rw [if_pos happ] at h
        cases hrun : runLoop cfg (initLoopSt ed0 t) evs with
        | pending s' => rw [hrun] at h; exact absurd h (by simp)
        | fuelOut s' => rw [hrun] at h; exact absurd h (by simp)
        | returned s' lr' => rw [hrun] at h; exact absurd h (by simp)
      · rw [if_neg happ] at h
        injection h with h1 h2 h3
        subst h1
        decide
  · intro lr s effs h
    unfold ReadLine at h
    rcases hsetup : orc.setup with _ | t
    · rw [hsetup] at h
      simp only [] at h
      exact absurd h (by simp)
    · rw [hsetup] at h
      simp only [] at h
      by_cases happ : orc.setupApplyOk = true
      · rw [if_pos happ] at h
        cases hrun : runLoop cfg (initLoopSt ed0 t) evs with
        | pending s' => rw [hrun] at h; exact absurd h (by simp)
        | fuelOut s' => rw [hrun] at h; exact absurd h (by simp)
        | returned s' lr' =>
          rw [hrun] at h
          simp only [] at h
          injection h with h1 h2 h3
          subst h1
          have herrs : (finishReadLine cfg orc.restoreErr s').2.2 = [] := by
            rw [finishReadLine_errs, hrender, hrestore]
            rfl
          rw [herrs]
          simp only [List.foldl]
          exact runLoop_tagged hex hrender evs _ _ _ hrun
      · rw [if_neg happ] at h
        exact absurd h (by simp)

/-- Error-free oracles for the amended-C9 witness run. -/
def orcW9 : ReadOracles := { setup := some {}, setupApplyOk := true, restoreErr := none }

/-- The error-free completed read exercising `lineRead_tagged`. -/
def runW9 : ReadLineRes := ReadLine cfgW7 orcW9 edW7 evsW7

theorem cfgW7_tagged : ExitsTagged cfgW7 := by
  intro m kb hkb k st
  cases m with
  | insert =>
    simp only [cfgW7] at hkb
    injection hkb with hk
    subst hk
    exact Nat.le_refl 1
  | command => simp [cfgW7] at hkb
  | completion => simp [cfgW7] at hkb
  | navigation => simp [cfgW7] at hkb
  | history => simp [cfgW7] at hkb

theorem lineRead_tagged_witness :
    (ReadLineRes.lrOf runW9).populatedCount ≤ 1 :=
  (lineRead_tagged cfgW7 orcW9 edW7 evsW7 cfgW7_tagged (fun _ => rfl) rfl).2
    (ReadLineRes.lrOf runW9) (ReadLineRes.loopStOf runW9) (ReadLineRes.effsOf runW9) rfl
